import Mathlib

/-!
# Wordwave — verification of the guess-evaluation and game-state engine

Shallow embedding of the core engine of the Wordwave word-guessing game
(`guessing.js`, the variant with MAX_GUESSES / gameOver / tiered scoring,
plus the word-list loader shared by both variants).  DOM rendering,
`localStorage` persistence and event wiring are external collaborators and
are not modelled; the engine state and its transitions are translated
directly from the source.

Words are modelled as `List Char`; JavaScript `Set`s of letters as
`List Char` with membership-preserving insertion; the random choices of
`buyHint` and `newGame` (`Math.floor(Math.random() * len)`, a uniform index
below `len`) as an explicit `pick` parameter reduced modulo the number of
alternatives.  The boolean `gameState.gameOver` is refined into a
three-valued `GameStatus` recording which terminal handler (`handleWin` /
`handleLoss`) set it; `gameOver == true` corresponds to `status ≠ inProgress`.
-/

namespace Wordwave

def MAX_GUESSES : Nat := 6
def WORD_LENGTH : Nat := 5

/-- Per-position feedback tag produced for a guess:
green / yellow / gray tiles in the source. -/
inductive Tag
  | Correct
  | Present
  | Absent
deriving DecidableEq, Repr

/-- Number of occurrences of letter `c` in word `w`
(the `letterCounts` table of `processGuess` before deductions). -/
def countLetter (w : List Char) (c : Char) : Nat :=
  w.countP (fun x => decide (x = c))

/-- Number of exact-match (green) positions carrying letter `c`:
the deduction applied to `letterCounts` between the two passes of
`processGuess`. -/
def greensFor (target guess : List Char) (c : Char) : Nat :=
  (target.zip guess).countP (fun p => decide (p.1 = p.2) && decide (p.2 = c))

/-- The remaining-count table available to the second pass of `processGuess`:
occurrences in the target minus occurrences consumed by exact matches. -/
def initCounts (target guess : List Char) : Char → Nat :=
  fun c => countLetter target c - greensFor target guess c

/-- Decrement a letter-count table at letter `g` (`letterCounts[letter]--`). -/
def decr (f : Char → Nat) (g : Char) : Char → Nat :=
  fun c => if c = g then f c - 1 else f c

/-- Second pass of `processGuess` over the zipped (target, guess) positions:
exact matches were tagged `Correct` in pass one; a non-exact position is
tagged `Present` while the remaining count of its letter is positive
(consuming one occurrence) and `Absent` otherwise. -/
def pass2 : List (Char × Char) → (Char → Nat) → List Tag
  | [], _ => []
  | p :: rest, f =>
    if p.1 = p.2 then Tag.Correct :: pass2 rest f
    else if 0 < f p.2 then Tag.Present :: pass2 rest (decr f p.2)
    else Tag.Absent :: pass2 rest f

/-- The per-position tags computed by `processGuess(guess)` against the
current target word: two-pass algorithm with exact multiplicity
semantics. -/
def processGuess (target guess : List Char) : List Tag :=
  pass2 (target.zip guess) (initCounts target guess)

/-- Number of positions tagged `t` whose guess letter is `L`. -/
def tagCountFor (t : Tag) (target guess : List Char) (L : Char) : Nat :=
  ((processGuess target guess).zip guess).countP
    (fun p => decide (p.1 = t) && decide (p.2 = L))

/-- The `[A-Z]` character test (the per-character content of the
`/^[A-Z]+$/` validation regex). -/
def isUpperAZ (c : Char) : Bool :=
  decide ('A' ≤ c) && decide (c ≤ 'Z')

/-- ASCII letter test: the raw characters accepted by the validation after
`toUpperCase` is applied. -/
def isAsciiLetter (c : Char) : Bool :=
  isUpperAZ c || (decide ('a' ≤ c) && decide (c ≤ 'z'))

/-- JavaScript `Set.add`: membership-preserving insertion
(insertion order kept, duplicates ignored). -/
def setAdd (s : List Char) (c : Char) : List Char :=
  if c ∈ s then s else s ++ [c]

/-- Add every letter of `cs` to the set `s` in order. -/
def addAll (s : List Char) (cs : List Char) : List Char :=
  cs.foldl setAdd s

/-- The guess letters receiving tag `t` in order of position: the letters
`processGuess` adds to the corresponding colour set. -/
def lettersTagged (t : Tag) (target guess : List Char) : List Char :=
  ((processGuess target guess).zip guess).filterMap
    (fun p => if p.1 = t then some p.2 else none)

/-- Game status: the source stores `gameOver : Bool`; `won` / `lost` record
which of `handleWin` / `handleLoss` set it. -/
inductive GameStatus
  | inProgress
  | won
  | lost
deriving DecidableEq, Repr

/-- The failure conditions of `makeGuess` (each surfaced as an `alert`
and an early return in the source). -/
inductive GuessError
  | GameAlreadyOver
  | MaxGuessesReached
  | InvalidLength
  | InvalidCharacters
  | NotInDictionary
deriving DecidableEq, Repr

/-- The failure conditions of `buyHint`. -/
inductive HintError
  | GameAlreadyOver
  | InsufficientPoints
  | NoHintsRemaining
deriving DecidableEq, Repr

/-- The mutable `gameState` object of the source
(minus DOM handles; see the module docstring). -/
structure GameState where
  wordToGuess : List Char
  guessCount : Nat
  greenLetters : List Char
  yellowLetters : List Char
  grayLetters : List Char
  points : Nat
  revealedHintIndices : List Nat
  validWords : List (List Char)
  streak : Nat
  status : GameStatus
deriving DecidableEq, Repr

/-- Model of `handleWin`: set game over (won), award 6 points when the word was found
within 2 guesses and 3 otherwise, and increment the streak. -/
def handleWin (s : GameState) : GameState :=
  let pointsAwarded := if s.guessCount ≤ 2 then 6 else 3
  { s with status := GameStatus.won,
           points := s.points + pointsAwarded,
           streak := s.streak + 1 }

/-- Model of `handleLoss`: set game over (lost) and reset the streak. -/
def handleLoss (s : GameState) : GameState :=
  { s with status := GameStatus.lost, streak := 0 }

/-- Model of `makeGuess`: validation chain (game over, guess budget, length, `[A-Z]`
regex, dictionary membership), then `processGuess` updates the colour sets,
the guess counter is incremented, and the win / loss handlers run.
The raw input is uppercased exactly as `input.value.toUpperCase()` does. -/
def makeGuess (s : GameState) (raw : List Char) : GameState × Option GuessError :=
  if s.status ≠ GameStatus.inProgress then
    (s, some GuessError.GameAlreadyOver)
  else if MAX_GUESSES ≤ s.guessCount then
    (s, some GuessError.MaxGuessesReached)
  else
    let guess := raw.map Char.toUpper
    if guess.length ≠ WORD_LENGTH then
      (s, some GuessError.InvalidLength)
    else if ¬ guess.all isUpperAZ then
      (s, some GuessError.InvalidCharacters)
    else if guess ∉ s.validWords then
      (s, some GuessError.NotInDictionary)
    else
      let tags := processGuess s.wordToGuess guess
      let s1 : GameState :=
        { s with greenLetters := addAll s.greenLetters (lettersTagged Tag.Correct s.wordToGuess guess),
                 yellowLetters := addAll s.yellowLetters (lettersTagged Tag.Present s.wordToGuess guess),
                 grayLetters := addAll s.grayLetters (lettersTagged Tag.Absent s.wordToGuess guess),
                 guessCount := s.guessCount + 1 }
      if tags.count Tag.Correct = WORD_LENGTH then
        (handleWin s1, none)
      else if MAX_GUESSES ≤ s1.guessCount then
        (handleLoss s1, none)
      else
        (s1, none)

/-- The board positions not yet revealed as hints, in increasing order. -/
def availableIndices (s : GameState) : List Nat :=
  (List.range WORD_LENGTH).filter (fun i => decide (i ∉ s.revealedHintIndices))

/-- Model of `buyHint`: refuse when the game is over, when fewer than 5 points are
held, or when every position is revealed; otherwise reveal a random
unrevealed position and deduct 5 points. -/
def buyHint (s : GameState) (pick : Nat) : GameState × Option HintError :=
  if s.status ≠ GameStatus.inProgress then
    (s, some HintError.GameAlreadyOver)
  else if s.points < 5 then
    (s, some HintError.InsufficientPoints)
  else
    let avail := availableIndices s
    if avail.length = 0 then
      (s, some HintError.NoHintsRemaining)
    else
      let idx := avail.getD (pick % avail.length) 0
      ({ s with revealedHintIndices := s.revealedHintIndices ++ [idx],
                points := s.points - 5 }, none)

/-- Model of `newGame`: reset the per-game state (guess counter, colour sets, revealed
hints, game-over flag) and draw a fresh target when the word list is
non-empty. -/
def newGame (s : GameState) (pick : Nat) : GameState :=
  { s with guessCount := 0,
           greenLetters := [],
           yellowLetters := [],
           grayLetters := [],
           revealedHintIndices := [],
           status := GameStatus.inProgress,
           wordToGuess :=
             if 0 < s.validWords.length then
               s.validWords.getD (pick % s.validWords.length) []
             else s.wordToGuess }

/-- Cumulative letter classification, as displayed by `createKey`:
green before yellow before gray, otherwise unclassified. -/
inductive Classification
  | Unknown
  | Absent
  | Present
  | Correct
deriving DecidableEq, Repr

/-- The colour choice of `createKey` for a keyboard letter. -/
def classifyLetter (s : GameState) (c : Char) : Classification :=
  if c ∈ s.greenLetters then Classification.Correct
  else if c ∈ s.yellowLetters then Classification.Present
  else if c ∈ s.grayLetters then Classification.Absent
  else Classification.Unknown

/-- Information rank of a classification: Unknown < Absent < Present < Correct. -/
def rank : Classification → Nat
  | Classification.Unknown => 0
  | Classification.Absent => 1
  | Classification.Present => 2
  | Classification.Correct => 3

/-- State reached after submitting a sequence of raw guesses. -/
def applyGuesses (s : GameState) (gs : List (List Char)) : GameState :=
  gs.foldl (fun st g => (makeGuess st g).1) s

/-- State reached after a sequence of hint purchases with given picks. -/
def applyHints (s : GameState) (picks : List Nat) : GameState :=
  picks.foldl (fun st k => (buyHint st k).1) s

/-- JavaScript whitespace test used by `trim` (ASCII part). -/
def isSpaceChar (c : Char) : Bool :=
  c = ' ' || c = '\t' || c = '\n' || c = '\r'

/-- Model of `split` at newlines: cut the character stream at every newline. -/
def splitLines : List Char → List (List Char)
  | [] => [[]]
  | c :: rest =>
    match splitLines rest with
    | [] => [[c]]
    | l :: ls => if c = '\n' then [] :: l :: ls else (c :: l) :: ls

/-- Model of `trim`: strip leading and trailing whitespace. -/
def trimChars (cs : List Char) : List Char :=
  ((cs.dropWhile isSpaceChar).reverse.dropWhile isSpaceChar).reverse

/-- The parsing done by `fetchWordList` on the dictionary text: split on newlines,
trim, uppercase, keep the entries of length `WORD_LENGTH`. -/
def fetchWordList (raw : List Char) : List (List Char) :=
  ((splitLines raw).map (fun w => (trimChars w).map Char.toUpper)).filter
    (fun w => decide (w.length = WORD_LENGTH))

/-- A guess raw input that passes every content check of `makeGuess` against
state `s`: length 5 after uppercasing, all `[A-Z]`, and in the dictionary. -/
def validRaw (s : GameState) (raw : List Char) : Prop :=
  (raw.map Char.toUpper).length = WORD_LENGTH ∧
  (raw.map Char.toUpper).all isUpperAZ = true ∧
  (raw.map Char.toUpper) ∈ s.validWords

instance (s : GameState) (raw : List Char) : Decidable (validRaw s raw) := by
  unfold validRaw; infer_instance

/-- The degraded word bank: the dictionary fetch failed, so `validWords`
stayed empty and only the fallback target `"APPLE"` was installed. -/
def degraded (s : GameState) : Prop :=
  s.validWords = []

instance (s : GameState) : Decidable (degraded s) := by
  unfold degraded; infer_instance

/-- A freshly started game on target `target` with word bank `bank`,
carried-over score `pts` and streak `stk`. -/
def mkFresh (target : List Char) (bank : List (List Char)) (pts stk : Nat) : GameState :=
  { wordToGuess := target
    guessCount := 0
    greenLetters := []
    yellowLetters := []
    grayLetters := []
    points := pts
    revealedHintIndices := []
    validWords := bank
    streak := stk
    status := GameStatus.inProgress }

/-- A small concrete word bank used to instantiate theorems. -/
def sampleBank : List (List Char) :=
  ["APPLE".toList, "CRANE".toList, "LEVEL".toList, "RANCH".toList, "ELBOW".toList,
   "STONE".toList, "BLANK".toList, "KIWIS".toList]

end Wordwave
namespace Wordwave

theorem pass2_length (ps : List (Char × Char)) (f : Char → Nat) :
    (pass2 ps f).length = ps.length := by
  induction ps generalizing f with
  | nil => rfl
  | cons p rest ih =>
    unfold pass2
    split
    · simpa using ih f
    · split
      · simpa using ih (decr f p.2)
      · simpa using ih f

theorem pass2_present_bound (ps : List (Char × Char)) (f : Char → Nat) (L : Char) :
    ((pass2 ps f).zip ps).countP
      (fun q => decide (q.1 = Tag.Present) && decide (q.2.2 = L)) ≤ f L := by
  induction ps generalizing f with
  | nil => simp [pass2]
  | cons p rest ih =>
    unfold pass2
    by_cases h1 : p.1 = p.2
    · rw [if_pos h1]
      simp only [List.zip_cons_cons, List.countP_cons]
      simpa using ih f
    · rw [if_neg h1]
      by_cases h2 : 0 < f p.2
      · rw [if_pos h2]
        simp only [List.zip_cons_cons, List.countP_cons]
        by_cases hL : p.2 = L
        · subst hL
          have hrec : ((pass2 rest (decr f p.2)).zip rest).countP
              (fun q => decide (q.1 = Tag.Present) && decide (q.2.2 = p.2)) ≤ f p.2 - 1 := by
            simpa [decr] using ih (decr f p.2)
          simp only [decide_eq_true_eq, and_self, decide_true_eq_true, Bool.and_self]
          simp
          omega
        · have hrec : ((pass2 rest (decr f p.2)).zip rest).countP
              (fun q => decide (q.1 = Tag.Present) && decide (q.2.2 = L)) ≤ f L := by
            have hd : decr f p.2 L = f L := by
              unfold decr
              rw [if_neg (fun h => hL h.symm)]
            simpa [hd] using ih (decr f p.2)
          simpa [hL] using hrec
      · rw [if_neg h2]
        simp only [List.zip_cons_cons, List.countP_cons]
        simpa using ih f

end Wordwave
namespace Wordwave

theorem pass2_correct_eq (ps : List (Char × Char)) (f : Char → Nat) (L : Char) :
    ((pass2 ps f).zip ps).countP
      (fun q => decide (q.1 = Tag.Correct) && decide (q.2.2 = L)) =
    ps.countP (fun p => decide (p.1 = p.2) && decide (p.2 = L)) := by
  induction ps generalizing f with
  | nil => simp [pass2]
  | cons p rest ih =>
    unfold pass2
    by_cases h1 : p.1 = p.2
    · rw [if_pos h1]
      simp only [List.zip_cons_cons, List.countP_cons, h1]
      simp [ih f]
    · rw [if_neg h1]
      by_cases h2 : 0 < f p.2
      · rw [if_pos h2]
        simp only [List.zip_cons_cons, List.countP_cons, ih (decr f p.2)]
        simp [h1]
      · rw [if_neg h2]
        simp only [List.zip_cons_cons, List.countP_cons, ih f]
        simp [h1]

theorem greensFor_le_countLetter (target guess : List Char) (c : Char) :
    greensFor target guess c ≤ countLetter target c := by
  unfold greensFor countLetter
  induction target generalizing guess with
  | nil => simp
  | cons a t ih =>
    cases guess with
    | nil => simp
    | cons b g =>
      simp only [List.zip_cons_cons, List.countP_cons]
      have := ih g
      by_cases hab : a = b
      · by_cases hbc : b = c
        · simp [hab, hbc]
          omega
        · simp [hbc]
          omega
      · simp [hab]
        split <;> omega

theorem zip_guess_eq_zip_pairs (xs : List Tag) (t g : List Char)
    (A : Tag → Bool) (B : Char → Bool)
    (h : xs.length = (t.zip g).length) :
    (xs.zip g).countP (fun p => A p.1 && B p.2) =
    (xs.zip (t.zip g)).countP (fun q => A q.1 && B q.2.2) := by
  induction xs generalizing t g with
  | nil => simp
  | cons x xs ih =>
    cases t with
    | nil => simp at h
    | cons a t' =>
      cases g with
      | nil => simp at h
      | cons b g' =>
        simp only [List.zip_cons_cons, List.countP_cons]
        simp only [List.zip_cons_cons, List.length_cons, Nat.succ.injEq] at h
        rw [ih t' g' h]

/-- Claim C1: for every target word and guess of length 5 over A–Z and every
letter `L`, the number of positions tagged `Correct` plus the number tagged
`Present` whose guess letter is `L` never exceeds the number of occurrences
of `L` in the target. -/
theorem c1_evaluator_letter_bound (target guess : List Char) (L : Char)
    (ht : target.length = WORD_LENGTH) (hg : guess.length = WORD_LENGTH)
    (htAZ : target.all isUpperAZ = true) (hgAZ : guess.all isUpperAZ = true) :
    tagCountFor Tag.Correct target guess L + tagCountFor Tag.Present target guess L ≤
      countLetter target L := by
  unfold tagCountFor processGuess
  have hlen : (pass2 (target.zip guess) (initCounts target guess)).length =
      (target.zip guess).length := pass2_length _ _
  rw [zip_guess_eq_zip_pairs _ target guess (fun x => decide (x = Tag.Correct))
        (fun c => decide (c = L)) hlen,
      zip_guess_eq_zip_pairs _ target guess (fun x => decide (x = Tag.Present))
        (fun c => decide (c = L)) hlen]
  rw [pass2_correct_eq]
  have hpres := pass2_present_bound (target.zip guess) (initCounts target guess) L
  have hgreen := greensFor_le_countLetter target guess L
  have hinit : initCounts target guess L = countLetter target L - greensFor target guess L := rfl
  unfold greensFor at *
  omega

end Wordwave
namespace Wordwave

theorem pass2_eq_replicate_iff (ps : List (Char × Char)) (f : Char → Nat) :
    pass2 ps f = List.replicate ps.length Tag.Correct ↔ ∀ p ∈ ps, p.1 = p.2 := by
  induction ps generalizing f with
  | nil => simp [pass2]
  | cons p rest ih =>
    unfold pass2
    by_cases h1 : p.1 = p.2
    · rw [if_pos h1]
      simp only [List.length_cons, List.replicate_succ, List.cons.injEq, true_and]
      rw [ih f]
      simp [h1]
    · rw [if_neg h1]
      by_cases h2 : 0 < f p.2
      · rw [if_pos h2]
        simp only [List.length_cons, List.replicate_succ, List.cons.injEq]
        simp [h1]
      · rw [if_neg h2]
        simp only [List.length_cons, List.replicate_succ, List.cons.injEq]
        simp [h1]

theorem zip_forall_eq (t g : List Char) (h : t.length = g.length) :
    (∀ p ∈ t.zip g, p.1 = p.2) ↔ t = g := by
  induction t generalizing g with
  | nil =>
    cases g with
    | nil => simp
    | cons b g' => simp at h
  | cons a t' ih =>
    cases g with
    | nil => simp at h
    | cons b g' =>
      simp only [List.length_cons, Nat.succ.injEq] at h
      simp only [List.zip_cons_cons, List.mem_cons, List.cons.injEq]
      constructor
      · intro hall
        refine ⟨hall (a, b) (Or.inl rfl), ?_⟩
        exact (ih g' h).mp (fun p hp => hall p (Or.inr hp))
      · rintro ⟨rfl, rfl⟩
        intro p hp
        rcases hp with rfl | hp
        · rfl
        · exact (ih t' rfl).mpr rfl p hp

/-- All-`Correct` characterisation of `processGuess` for length-5 words. -/
theorem processGuess_eq_replicate_iff (target guess : List Char)
    (ht : target.length = WORD_LENGTH) (hg : guess.length = WORD_LENGTH) :
    processGuess target guess = List.replicate WORD_LENGTH Tag.Correct ↔ guess = target := by
  unfold processGuess
  have hzl : (target.zip guess).length = WORD_LENGTH := by
    rw [List.length_zip, ht, hg]
    simp
  rw [← hzl, pass2_eq_replicate_iff, zip_forall_eq target guess (by rw [ht, hg])]
  exact eq_comm

/-- Claim C2: for every target and guess of length 5 over A–Z, the evaluator
produces five `Correct` tags exactly when the guess equals the target. -/
theorem c2_all_correct_iff_eq (target guess : List Char)
    (ht : target.length = WORD_LENGTH) (hg : guess.length = WORD_LENGTH)
    (htAZ : target.all isUpperAZ = true) (hgAZ : guess.all isUpperAZ = true) :
    processGuess target guess = List.replicate WORD_LENGTH Tag.Correct ↔ guess = target :=
  processGuess_eq_replicate_iff target guess ht hg

/-- Witness for C2 at target = guess = "APPLE". -/
theorem c2_witness :
    processGuess "APPLE".toList "APPLE".toList = List.replicate WORD_LENGTH Tag.Correct :=
  (c2_all_correct_iff_eq "APPLE".toList "APPLE".toList rfl rfl (by decide) (by decide)).mpr rfl

/-- Witness for C1 at target "LEVEL", guess "ELBOW", letter 'E'. -/
theorem c1_witness :
    tagCountFor Tag.Correct "LEVEL".toList "ELBOW".toList 'E' +
      tagCountFor Tag.Present "LEVEL".toList "ELBOW".toList 'E' ≤
      countLetter "LEVEL".toList 'E' :=
  c1_evaluator_letter_bound "LEVEL".toList "ELBOW".toList 'E' rfl rfl (by decide) (by decide)

end Wordwave
namespace Wordwave

theorem setAdd_subset (s : List Char) (c : Char) : s ⊆ setAdd s c := by
  unfold setAdd
  split
  · exact fun x hx => hx
  · exact fun x hx => List.mem_append_left _ hx

theorem addAll_subset (s : List Char) (cs : List Char) : s ⊆ addAll s cs := by
  induction cs generalizing s with
  | nil => exact fun x hx => hx
  | cons c cs ih =>
    intro x hx
    exact ih (setAdd s c) (setAdd_subset s c hx)

theorem rank_classify_mono (s s' : GameState) (c : Char)
    (hg : s.greenLetters ⊆ s'.greenLetters)
    (hy : s.yellowLetters ⊆ s'.yellowLetters)
    (ha : s.grayLetters ⊆ s'.grayLetters) :
    rank (classifyLetter s c) ≤ rank (classifyLetter s' c) := by
  unfold classifyLetter
  by_cases h1 : c ∈ s.greenLetters
  · rw [if_pos h1, if_pos (hg h1)]
  · rw [if_neg h1]
    by_cases h2 : c ∈ s.yellowLetters
    · rw [if_pos h2]
      by_cases h1' : c ∈ s'.greenLetters
      · rw [if_pos h1']
        simp [rank]
      · rw [if_neg h1', if_pos (hy h2)]
    · rw [if_neg h2]
      by_cases h3 : c ∈ s.grayLetters
      · rw [if_pos h3]
        by_cases h1' : c ∈ s'.greenLetters
        · rw [if_pos h1']; simp [rank]
        · rw [if_neg h1']
          by_cases h2' : c ∈ s'.yellowLetters
          · rw [if_pos h2']; simp [rank]
          · rw [if_neg h2', if_pos (ha h3)]
      · rw [if_neg h3]
        simp [rank]

theorem makeGuess_grows (s : GameState) (raw : List Char) :
    s.greenLetters ⊆ ((makeGuess s raw).1).greenLetters ∧
    s.yellowLetters ⊆ ((makeGuess s raw).1).yellowLetters ∧
    s.grayLetters ⊆ ((makeGuess s raw).1).grayLetters := by
  unfold makeGuess handleWin handleLoss
  dsimp only
  split_ifs <;>
    refine ⟨?_, ?_, ?_⟩ <;>
    first
      | exact fun x hx => hx
      | exact addAll_subset _ _

/-- Claim C3: across any sequence of submitted guesses within one game, each
letter's cumulative classification (as displayed by `createKey`) is
monotonically non-decreasing in rank (Unknown < Absent < Present < Correct). -/
theorem c3_classification_monotone (s : GameState) (gs : List (List Char)) (c : Char) :
    rank (classifyLetter s c) ≤ rank (classifyLetter (applyGuesses s gs) c) := by
  induction gs generalizing s with
  | nil => exact Nat.le_refl _
  | cons g gs ih =>
    have hstep := makeGuess_grows s g
    have h1 : rank (classifyLetter s c) ≤ rank (classifyLetter (makeGuess s g).1 c) :=
      rank_classify_mono s (makeGuess s g).1 c hstep.1 hstep.2.1 hstep.2.2
    have h2 := ih (makeGuess s g).1
    calc rank (classifyLetter s c) ≤ rank (classifyLetter (makeGuess s g).1 c) := h1
      _ ≤ rank (classifyLetter (applyGuesses (makeGuess s g).1 gs) c) := h2

end Wordwave
namespace Wordwave

theorem char_le_iff_toNat (a c : Char) : (a ≤ c) ↔ a.toNat ≤ c.toNat := by
  rw [Char.le_def]
  exact ⟨fun h => h, fun h => h⟩

theorem toNat_ofNat_valid (n : Nat) (h : n < 55296) : (Char.ofNat n).toNat = n := by
  rw [Char.ofNat, dif_pos (Or.inl h)]
  rfl

/-- Applying `toUpperCase` then the `[A-Z]` test accepts exactly the ASCII
letters. -/
theorem isUpperAZ_toUpper (c : Char) : isUpperAZ c.toUpper = isAsciiLetter c := by
  have h65 : ('A' : Char).toNat = 65 := rfl
  have h90 : ('Z' : Char).toNat = 90 := rfl
  have h97 : ('a' : Char).toNat = 97 := rfl
  have h122 : ('z' : Char).toNat = 122 := rfl
  unfold Char.toUpper
  by_cases h : c.toNat ≥ 97 ∧ c.toNat ≤ 122
  · rw [if_pos h]
    have hv : (Char.ofNat (c.toNat - 32)).toNat = c.toNat - 32 :=
      toNat_ofNat_valid _ (by omega)
    rw [Bool.eq_iff_iff]
    simp only [isUpperAZ, isAsciiLetter, Bool.and_eq_true, Bool.or_eq_true,
      decide_eq_true_eq, char_le_iff_toNat, hv, h65, h90, h97, h122]
    omega
  · rw [if_neg h]
    rw [Bool.eq_iff_iff]
    simp only [isUpperAZ, isAsciiLetter, Bool.and_eq_true, Bool.or_eq_true,
      decide_eq_true_eq, char_le_iff_toNat, h65, h90, h97, h122]
    omega

theorem all_upper_bridge (raw : List Char) :
    (raw.map Char.toUpper).all isUpperAZ = raw.all isAsciiLetter := by
  induction raw with
  | nil => rfl
  | cons c cs ih => simp [isUpperAZ_toUpper, ih]

/-- Claim C4: `makeGuess` fails with `GameAlreadyOver` when the session is not
in progress, with `InvalidLength` when the raw guess length is not 5, with
`InvalidCharacters` when the raw guess contains a non-letter, and with
`NotInDictionary` when the bank is not degraded and does not contain the
guess; each failure leaves the game state unchanged. -/
theorem c4_submitGuess_validation (s : GameState) (raw : List Char) :
    (s.status ≠ GameStatus.inProgress →
       makeGuess s raw = (s, some GuessError.GameAlreadyOver)) ∧
    (s.status = GameStatus.inProgress → s.guessCount < MAX_GUESSES →
       raw.length ≠ WORD_LENGTH →
       makeGuess s raw = (s, some GuessError.InvalidLength)) ∧
    (s.status = GameStatus.inProgress → s.guessCount < MAX_GUESSES →
       raw.length = WORD_LENGTH → ¬ raw.all isAsciiLetter = true →
       makeGuess s raw = (s, some GuessError.InvalidCharacters)) ∧
    (s.status = GameStatus.inProgress → s.guessCount < MAX_GUESSES →
       raw.length = WORD_LENGTH → raw.all isAsciiLetter = true →
       ¬ degraded s → (raw.map Char.toUpper) ∉ s.validWords →
       makeGuess s raw = (s, some GuessError.NotInDictionary)) := by
  refine ⟨?_, ?_, ?_, ?_⟩
  · intro hst
    unfold makeGuess
    rw [if_pos hst]
  · intro hst hc hlen
    unfold makeGuess
    rw [if_neg (by simp [hst]), if_neg (by omega), if_pos (by simpa using hlen)]
  · intro hst hc hlen hchar
    unfold makeGuess
    rw [if_neg (by simp [hst]), if_neg (by omega), if_neg (by simpa using hlen),
        if_pos (by rw [all_upper_bridge]; exact hchar)]
  · intro hst hc hlen hchar hdeg hmem
    unfold makeGuess
    rw [if_neg (by simp [hst]), if_neg (by omega), if_neg (by simpa using hlen),
        if_neg (by rw [all_upper_bridge]; simp [hchar]), if_pos hmem]

/-- Witness for C4: the four failure modes at concrete states and inputs. -/
theorem c4_witness :
    (makeGuess { mkFresh "APPLE".toList sampleBank 0 0 with status := GameStatus.won }
        "CRANE".toList =
      ({ mkFresh "APPLE".toList sampleBank 0 0 with status := GameStatus.won },
        some GuessError.GameAlreadyOver)) ∧
    (makeGuess (mkFresh "APPLE".toList sampleBank 0 0) "CAT".toList =
      (mkFresh "APPLE".toList sampleBank 0 0, some GuessError.InvalidLength)) ∧
    (makeGuess (mkFresh "APPLE".toList sampleBank 0 0) "CR4NE".toList =
      (mkFresh "APPLE".toList sampleBank 0 0, some GuessError.InvalidCharacters)) ∧
    (makeGuess (mkFresh "APPLE".toList sampleBank 0 0) "ZZZZZ".toList =
      (mkFresh "APPLE".toList sampleBank 0 0, some GuessError.NotInDictionary)) := by
  refine ⟨?_, ?_, ?_, ?_⟩
  · exact (c4_submitGuess_validation _ _).1 (by decide)
  · exact (c4_submitGuess_validation _ _).2.1 rfl (by decide) (by decide)
  · exact (c4_submitGuess_validation _ _).2.2.1 rfl (by decide) (by decide) (by decide)
  · exact (c4_submitGuess_validation _ _).2.2.2 rfl (by decide) (by decide) (by decide)
      (by decide) (by decide)

end Wordwave
namespace Wordwave

/-- The `correctCount == WORD_LENGTH` test of `processGuess` succeeds exactly
when the guess equals the target (for length-5 words). -/
theorem processGuess_count_correct_iff (target guess : List Char)
    (ht : target.length = WORD_LENGTH) (hg : guess.length = WORD_LENGTH) :
    (processGuess target guess).count Tag.Correct = WORD_LENGTH ↔ guess = target := by
  have hlen : (processGuess target guess).length = WORD_LENGTH := by
    unfold processGuess
    rw [pass2_length, List.length_zip, ht, hg]
    simp
  rw [← processGuess_eq_replicate_iff target guess ht hg]
  constructor
  · intro h
    exact List.eq_replicate_iff.mpr
      ⟨hlen, fun b hb => (List.count_eq_length.mp (by rw [h, hlen]) b hb).symm⟩
  · intro h
    rw [h]
    simp [WORD_LENGTH]

end Wordwave
namespace Wordwave

/-- A successful non-winning guess: counter up by one, loss exactly on the
last allowed guess, target and dictionary untouched. -/
theorem makeGuess_success_nonwin (s : GameState) (raw : List Char)
    (hst : s.status = GameStatus.inProgress) (hc : s.guessCount < MAX_GUESSES)
    (hv : validRaw s raw) (htlen : s.wordToGuess.length = WORD_LENGTH)
    (hnw : raw.map Char.toUpper ≠ s.wordToGuess) :
    (makeGuess s raw).1.status =
      (if s.guessCount + 1 = MAX_GUESSES then GameStatus.lost else GameStatus.inProgress) ∧
    (makeGuess s raw).1.guessCount = s.guessCount + 1 ∧
    (makeGuess s raw).1.wordToGuess = s.wordToGuess ∧
    (makeGuess s raw).1.validWords = s.validWords ∧
    (makeGuess s raw).2 = none := by
  obtain ⟨hlen, haz, hmem⟩ := hv
  have hcount : ¬ (processGuess s.wordToGuess (raw.map Char.toUpper)).count Tag.Correct
      = WORD_LENGTH := by
    rw [processGuess_count_correct_iff _ _ htlen hlen]
    exact hnw
  unfold makeGuess
  rw [if_neg (by simp [hst]), if_neg (by omega), if_neg (by simpa using hlen),
      if_neg (by simp [haz]), if_neg (by simp [hmem])]
  dsimp only
  rw [if_neg hcount]
  by_cases hlast : MAX_GUESSES ≤ s.guessCount + 1
  · rw [if_pos hlast]
    have : s.guessCount + 1 = MAX_GUESSES := by omega
    simp [handleLoss, this]
  · rw [if_neg hlast]
    have : ¬ s.guessCount + 1 = MAX_GUESSES := by omega
    simp [this, hst]

/-- A successful winning guess: `handleWin` runs on the incremented state. -/
theorem makeGuess_success_win (s : GameState) (raw : List Char)
    (hst : s.status = GameStatus.inProgress) (hc : s.guessCount < MAX_GUESSES)
    (hv : validRaw s raw) (hw : raw.map Char.toUpper = s.wordToGuess) :
    (makeGuess s raw).1.status = GameStatus.won ∧
    (makeGuess s raw).1.guessCount = s.guessCount + 1 ∧
    (makeGuess s raw).1.points =
      s.points + (if s.guessCount + 1 ≤ 2 then 6 else 3) ∧
    (makeGuess s raw).1.streak = s.streak + 1 ∧
    (makeGuess s raw).1.wordToGuess = s.wordToGuess ∧
    (makeGuess s raw).1.validWords = s.validWords ∧
    (makeGuess s raw).2 = none := by
  obtain ⟨hlen, haz, hmem⟩ := hv
  have htlen : s.wordToGuess.length = WORD_LENGTH := by rw [← hw]; exact hlen
  have hcount : (processGuess s.wordToGuess (raw.map Char.toUpper)).count Tag.Correct
      = WORD_LENGTH := by
    rw [processGuess_count_correct_iff _ _ htlen hlen]
    exact hw
  unfold makeGuess
  rw [if_neg (by simp [hst]), if_neg (by omega), if_neg (by simpa using hlen),
      if_neg (by simp [haz]), if_neg (by simp [hmem])]
  dsimp only
  rw [if_pos hcount]
  have haward : (s.guessCount + 1 ≤ 2) = (s.guessCount ≤ 1) := by
    simp only [eq_iff_iff]
    omega
  simp [handleWin, haward]

end Wordwave
namespace Wordwave

/-- Folding valid non-winning guesses: the counter accumulates and the game is
lost exactly when the guess budget is exhausted by a submitted guess. -/
theorem applyGuesses_nonwin (gs : List (List Char)) : ∀ s : GameState,
    s.status = GameStatus.inProgress →
    s.wordToGuess.length = WORD_LENGTH →
    (∀ g ∈ gs, validRaw s g ∧ g.map Char.toUpper ≠ s.wordToGuess) →
    s.guessCount + gs.length ≤ MAX_GUESSES →
    (applyGuesses s gs).guessCount = s.guessCount + gs.length ∧
    (applyGuesses s gs).status =
      (if s.guessCount + gs.length = MAX_GUESSES ∧ 0 < gs.length
       then GameStatus.lost else GameStatus.inProgress) := by
  induction gs with
  | nil =>
    intro s hst htlen hgs hbound
    simp [applyGuesses, hst]
  | cons g gs ih =>
    intro s hst htlen hgs hbound
    have hg := hgs g (List.mem_cons_self g gs)
    have hc : s.guessCount < MAX_GUESSES := by
      simp only [List.length_cons] at hbound
      omega
    have hstep := makeGuess_success_nonwin s g hst hc hg.1 htlen hg.2
    have happ : applyGuesses s (g :: gs) = applyGuesses (makeGuess s g).1 gs := rfl
    by_cases hlast : s.guessCount + 1 = MAX_GUESSES
    · have hglen : gs.length = 0 := by
        simp only [List.length_cons] at hbound
        omega
      have hgs0 : gs = [] := List.length_eq_zero.mp hglen
      subst hgs0
      rw [happ]
      simp only [applyGuesses, List.foldl_nil]
      refine ⟨by rw [hstep.2.1]; simp, ?_⟩
      rw [hstep.1, if_pos hlast]
      simp only [List.length_cons, List.length_nil]
      rw [if_pos (by constructor <;> omega)]
    · have hs1st : (makeGuess s g).1.status = GameStatus.inProgress := by
        rw [hstep.1, if_neg hlast]
      have hs1gs : ∀ x ∈ gs, validRaw (makeGuess s g).1 x ∧
          x.map Char.toUpper ≠ (makeGuess s g).1.wordToGuess := by
        intro x hx
        have := hgs x (List.mem_cons_of_mem g hx)
        refine ⟨?_, ?_⟩
        · unfold validRaw at this ⊢
          rw [hstep.2.2.2.1]
          exact this.1
        · rw [hstep.2.2.1]
          exact this.2
      have hs1len : (makeGuess s g).1.wordToGuess.length = WORD_LENGTH := by
        rw [hstep.2.2.1]
        exact htlen
      have hbound1 : (makeGuess s g).1.guessCount + gs.length ≤ MAX_GUESSES := by
        rw [hstep.2.1]
        simp only [List.length_cons] at hbound
        omega
      have hrec := ih (makeGuess s g).1 hs1st hs1len hs1gs hbound1
      rw [happ]
      refine ⟨?_, ?_⟩
      · rw [hrec.1, hstep.2.1]
        simp only [List.length_cons]
        omega
      · have hrec2 := hrec.2
        simp only [hstep.2.1] at hrec2
        rw [hrec2]
        simp only [List.length_cons]
        by_cases hcond : s.guessCount + (gs.length + 1) = MAX_GUESSES
        · rw [if_pos ⟨by omega, by omega⟩, if_pos ⟨hcond, by omega⟩]
        · rw [if_neg (fun h => hcond (by omega)), if_neg (fun h => hcond h.1)]

/-- Claim C5: six valid non-winning guesses from a fresh game lose it; a valid
winning guess at any attempt within the budget wins it; once the game is over
no further guess is accepted. -/
theorem c5_state_machine (s : GameState) (gs : List (List Char)) (g : List Char) :
    (s.status = GameStatus.inProgress → s.guessCount = 0 →
       s.wordToGuess.length = WORD_LENGTH → gs.length = MAX_GUESSES →
       (∀ x ∈ gs, validRaw s x ∧ x.map Char.toUpper ≠ s.wordToGuess) →
       (applyGuesses s gs).status = GameStatus.lost) ∧
    (s.status = GameStatus.inProgress → s.guessCount < MAX_GUESSES →
       validRaw s g → g.map Char.toUpper = s.wordToGuess →
       (makeGuess s g).1.status = GameStatus.won) ∧
    (s.status ≠ GameStatus.inProgress →
       makeGuess s g = (s, some GuessError.GameAlreadyOver)) := by
  refine ⟨?_, ?_, ?_⟩
  · intro hst h0 htlen hlen hgs
    have := applyGuesses_nonwin gs s hst htlen hgs (by rw [h0, hlen]; omega)
    rw [this.2, h0, hlen]
    rw [if_pos ⟨rfl, by simp [MAX_GUESSES]⟩]
  · intro hst hc hv hw
    exact (makeGuess_success_win s g hst hc hv hw).1
  · intro hst
    unfold makeGuess
    rw [if_pos hst]

/-- Witness for C5: a fresh game on "APPLE" is lost after six "CRANE"
guesses, won at once by "APPLE", and rejects guesses when over. -/
theorem c5_witness :
    (applyGuesses (mkFresh "APPLE".toList sampleBank 0 0)
        ["CRANE".toList, "CRANE".toList, "CRANE".toList,
         "CRANE".toList, "CRANE".toList, "CRANE".toList]).status = GameStatus.lost ∧
    (makeGuess (mkFresh "APPLE".toList sampleBank 0 0) "APPLE".toList).1.status =
      GameStatus.won ∧
    makeGuess { mkFresh "APPLE".toList sampleBank 0 0 with status := GameStatus.lost }
        "CRANE".toList =
      ({ mkFresh "APPLE".toList sampleBank 0 0 with status := GameStatus.lost },
        some GuessError.GameAlreadyOver) := by
  refine ⟨?_, ?_, ?_⟩
  · exact (c5_state_machine _ _ "APPLE".toList).1 rfl rfl rfl rfl (by decide)
  · exact (c5_state_machine _ [] _).2.1 rfl (by decide) (by decide) (by decide)
  · exact (c5_state_machine _ [] _).2.2 (by decide)

end Wordwave
namespace Wordwave

/-- Claim C6: a win after `guessCount + 1` guesses awards 6 points when the
word was found within two guesses and 3 otherwise, adds the award to the
score, and increments the streak by one. -/
theorem c6_win_scoring (s : GameState) (raw : List Char)
    (hst : s.status = GameStatus.inProgress) (hc : s.guessCount < MAX_GUESSES)
    (hv : validRaw s raw) (hw : raw.map Char.toUpper = s.wordToGuess) :
    (makeGuess s raw).1.guessCount = s.guessCount + 1 ∧
    (makeGuess s raw).1.points =
      s.points + (if s.guessCount + 1 ≤ 2 then 6 else 3) ∧
    (makeGuess s raw).1.streak = s.streak + 1 ∧
    (makeGuess s raw).1.status = GameStatus.won := by
  have h := makeGuess_success_win s raw hst hc hv hw
  exact ⟨h.2.1, h.2.2.1, h.2.2.2.1, h.1⟩

/-- Witness for C6: winning "APPLE" on the first guess awards 6 points. -/
theorem c6_witness :
    (makeGuess (mkFresh "APPLE".toList sampleBank 4 2) "APPLE".toList).1.guessCount = 1 ∧
    (makeGuess (mkFresh "APPLE".toList sampleBank 4 2) "APPLE".toList).1.points =
      4 + (if 0 + 1 ≤ 2 then 6 else 3) ∧
    (makeGuess (mkFresh "APPLE".toList sampleBank 4 2) "APPLE".toList).1.streak = 2 + 1 ∧
    (makeGuess (mkFresh "APPLE".toList sampleBank 4 2) "APPLE".toList).1.status =
      GameStatus.won :=
  c6_win_scoring (mkFresh "APPLE".toList sampleBank 4 2) "APPLE".toList rfl (by decide)
    (by decide) (by decide)

end Wordwave
namespace Wordwave

/-- The revealed hint index of a successful `buyHint` is drawn from the
unrevealed positions. -/
theorem buyHint_pick_mem (s : GameState) (pick : Nat)
    (h : availableIndices s ≠ []) :
    (availableIndices s).getD (pick % (availableIndices s).length) 0 ∈
      availableIndices s := by
  have hlen : 0 < (availableIndices s).length := List.length_pos.mpr h
  have hidx : pick % (availableIndices s).length < (availableIndices s).length :=
    Nat.mod_lt _ hlen
  rw [List.getD_eq_getElem?_getD, List.getElem?_eq_getElem hidx]
  exact List.getElem_mem hidx

/-- The successful branch of `buyHint`, in closed form. -/
theorem buyHint_success (s : GameState) (pick : Nat)
    (hst : s.status = GameStatus.inProgress) (hp : 5 ≤ s.points)
    (hav : availableIndices s ≠ []) :
    buyHint s pick =
      ({ s with revealedHintIndices := s.revealedHintIndices ++ [(availableIndices s).getD (pick % (availableIndices s).length) 0], points := s.points - 5 }, none) := by
  unfold buyHint
  rw [if_neg (by simp [hst]), if_neg (by omega),
      if_neg (by simpa using fun h => hav (List.length_eq_zero.mp h))]

/-- Claim C7 (amended): on an in-progress game, `buyHint` with fewer than 5
points fails with `InsufficientPoints` leaving the whole state unchanged, and
with at least 5 points and an unrevealed position left it succeeds and
deducts exactly 5 points. -/
theorem c7_hint_points (s : GameState) (pick : Nat) :
    (s.status = GameStatus.inProgress → s.points < 5 →
       buyHint s pick = (s, some HintError.InsufficientPoints)) ∧
    (s.status = GameStatus.inProgress → 5 ≤ s.points → availableIndices s ≠ [] →
       (buyHint s pick).2 = none ∧ (buyHint s pick).1.points + 5 = s.points) := by
  refine ⟨?_, ?_⟩
  · intro hst hp
    unfold buyHint
    rw [if_neg (by simp [hst]), if_pos hp]
  · intro hst hp hav
    rw [buyHint_success s pick hst hp hav]
    refine ⟨rfl, ?_⟩
    simp only
    omega

/-- Counterexample for C7 as stated: on a finished game with 3 points,
`buyHint` fails with `GameAlreadyOver`, not `InsufficientPoints`. -/
theorem c7_counterexample :
    ({ mkFresh "APPLE".toList sampleBank 3 0 with status := GameStatus.won } :
        GameState).points < 5 ∧
    (buyHint { mkFresh "APPLE".toList sampleBank 3 0 with status := GameStatus.won } 0).2 ≠
      some HintError.InsufficientPoints := by
  decide

/-- Witness for C7 (amended): points=3 in progress fails and stays at 3;
points=7 in progress succeeds and drops to 2. -/
theorem c7_witness :
    buyHint (mkFresh "APPLE".toList sampleBank 3 0) 0 =
      (mkFresh "APPLE".toList sampleBank 3 0, some HintError.InsufficientPoints) ∧
    (buyHint (mkFresh "APPLE".toList sampleBank 7 0) 2).2 = none ∧
    (buyHint (mkFresh "APPLE".toList sampleBank 7 0) 2).1.points + 5 = 7 := by
  refine ⟨?_, ?_, ?_⟩
  · exact (c7_hint_points (mkFresh "APPLE".toList sampleBank 3 0) 0).1 rfl (by decide)
  · exact ((c7_hint_points (mkFresh "APPLE".toList sampleBank 7 0) 2).2 rfl (by decide)
      (by decide)).1
  · exact ((c7_hint_points (mkFresh "APPLE".toList sampleBank 7 0) 2).2 rfl (by decide)
      (by decide)).2

end Wordwave
namespace Wordwave

theorem mem_availableIndices (s : GameState) (i : Nat) :
    i ∈ availableIndices s ↔ i < WORD_LENGTH ∧ i ∉ s.revealedHintIndices := by
  unfold availableIndices
  rw [List.mem_filter, List.mem_range]
  simp

/-- Purchasing a hint preserves distinctness of the revealed positions. -/
theorem buyHint_nodup (s : GameState) (pick : Nat)
    (h : s.revealedHintIndices.Nodup) :
    ((buyHint s pick).1).revealedHintIndices.Nodup := by
  by_cases h1 : s.status ≠ GameStatus.inProgress
  · unfold buyHint
    rw [if_pos h1]
    exact h
  · by_cases h2 : s.points < 5
    · unfold buyHint
      rw [if_neg h1, if_pos h2]
      exact h
    · by_cases h3 : availableIndices s = []
      · unfold buyHint
        dsimp only
        rw [if_neg h1, if_neg h2, if_pos (by rw [h3]; rfl)]
        exact h
      · have hst : s.status = GameStatus.inProgress := not_not.mp h1
        have hp : 5 ≤ s.points := Nat.not_lt.mp h2
        have hmem := buyHint_pick_mem s pick h3
        have hnot : (availableIndices s).getD (pick % (availableIndices s).length) 0 ∉
            s.revealedHintIndices := ((mem_availableIndices s _).mp hmem).2
        simp only [buyHint_success s pick hst hp h3]
        rw [List.nodup_append]
        refine ⟨h, List.nodup_singleton _, ?_⟩
        intro a ha hb
        rw [List.mem_singleton] at hb
        exact hnot (hb ▸ ha)

/-- Invariant along a run of successful hint purchases: the game stays in
progress, the revealed positions stay distinct and within the board, one
position is added per purchase, and 5 points are paid each time. -/
theorem applyHints_invariant (picks : List Nat) : ∀ s : GameState,
    s.status = GameStatus.inProgress →
    s.revealedHintIndices.Nodup →
    (∀ i ∈ s.revealedHintIndices, i < WORD_LENGTH) →
    s.revealedHintIndices.length + picks.length ≤ WORD_LENGTH →
    5 * picks.length ≤ s.points →
    (applyHints s picks).status = GameStatus.inProgress ∧
    (applyHints s picks).revealedHintIndices.Nodup ∧
    (∀ i ∈ (applyHints s picks).revealedHintIndices, i < WORD_LENGTH) ∧
    (applyHints s picks).revealedHintIndices.length =
      s.revealedHintIndices.length + picks.length ∧
    (applyHints s picks).points = s.points - 5 * picks.length := by
  induction picks with
  | nil =>
    intro s hst hnd hlt hbound hpts
    simpa [applyHints] using ⟨hst, hnd, hlt⟩
  | cons k picks ih =>
    intro s hst hnd hlt hbound hpts
    simp only [List.length_cons] at hbound hpts
    have hplen : s.revealedHintIndices.length < WORD_LENGTH := by omega
    have hav : availableIndices s ≠ [] := by
      intro he
      have hall : ∀ i, i < WORD_LENGTH → i ∈ s.revealedHintIndices := by
        intro i hi
        by_contra hni
        have hm : i ∈ availableIndices s := (mem_availableIndices s i).mpr ⟨hi, hni⟩
        rw [he] at hm
        exact absurd hm (List.not_mem_nil i)
      have hsub : (Finset.range WORD_LENGTH) ⊆ s.revealedHintIndices.toFinset :=
        fun i hi => List.mem_toFinset.mpr (hall i (Finset.mem_range.mp hi))
      have hcard := Finset.card_le_card hsub
      rw [Finset.card_range, List.toFinset_card_of_nodup hnd] at hcard
      omega
    have hp5 : 5 ≤ s.points := by omega
    have hmem := buyHint_pick_mem s k hav
    have hidxlt : (availableIndices s).getD (k % (availableIndices s).length) 0 <
        WORD_LENGTH := ((mem_availableIndices s _).mp hmem).1
    have hidxnot : (availableIndices s).getD (k % (availableIndices s).length) 0 ∉
        s.revealedHintIndices := ((mem_availableIndices s _).mp hmem).2
    have happ : applyHints s (k :: picks) = applyHints (buyHint s k).1 picks := rfl
    have h1st : (buyHint s k).1.status = GameStatus.inProgress := by
      simp only [buyHint_success s k hst hp5 hav]
      exact hst
    have h1nd : (buyHint s k).1.revealedHintIndices.Nodup := buyHint_nodup s k hnd
    have h1lt : ∀ i ∈ (buyHint s k).1.revealedHintIndices, i < WORD_LENGTH := by
      simp only [buyHint_success s k hst hp5 hav]
      intro i hi
      rcases List.mem_append.mp hi with hi | hi
      · exact hlt i hi
      · rw [List.mem_singleton.mp hi]
        exact hidxlt
    have h1len : (buyHint s k).1.revealedHintIndices.length =
        s.revealedHintIndices.length + 1 := by
      simp only [buyHint_success s k hst hp5 hav]
      simp
    have h1pts : (buyHint s k).1.points = s.points - 5 := by
      simp only [buyHint_success s k hst hp5 hav]
    have hrec := ih (buyHint s k).1 h1st h1nd h1lt
      (by rw [h1len]; omega) (by rw [h1pts]; omega)
    rw [happ]
    refine ⟨hrec.1, hrec.2.1, hrec.2.2.1, ?_, ?_⟩
    · rw [hrec.2.2.2.1, h1len]
      simp only [List.length_cons]
      omega
    · rw [hrec.2.2.2.2, h1pts]
      simp only [List.length_cons]
      omega

end Wordwave
namespace Wordwave

/-- Once five distinct board positions are revealed, none remain. -/
theorem availableIndices_eq_nil (s : GameState)
    (hnd : s.revealedHintIndices.Nodup)
    (hlt : ∀ i ∈ s.revealedHintIndices, i < WORD_LENGTH)
    (hlen : s.revealedHintIndices.length = WORD_LENGTH) :
    availableIndices s = [] := by
  have hsub : s.revealedHintIndices.toFinset ⊆ Finset.range WORD_LENGTH :=
    fun i hi => Finset.mem_range.mpr (hlt i (List.mem_toFinset.mp hi))
  have heq : s.revealedHintIndices.toFinset = Finset.range WORD_LENGTH :=
    (Finset.eq_of_subset_of_card_le hsub
      (by rw [List.toFinset_card_of_nodup hnd, hlen, Finset.card_range])).symm ▸ rfl
  unfold availableIndices
  rw [List.filter_eq_nil_iff]
  intro a ha
  have hmem : a ∈ s.revealedHintIndices := by
    have h1 : a ∈ s.revealedHintIndices.toFinset := by
      rw [heq]
      exact Finset.mem_range.mpr (List.mem_range.mp ha)
    exact List.mem_toFinset.mp h1
  simp [hmem]

/-- The `NoHintsRemaining` branch of `buyHint`. -/
theorem buyHint_noHints (s : GameState) (k : Nat)
    (hst : s.status = GameStatus.inProgress) (hp : ¬ s.points < 5)
    (hav : availableIndices s = []) :
    buyHint s k = (s, some HintError.NoHintsRemaining) := by
  unfold buyHint
  dsimp only
  rw [if_neg (by simp [hst]), if_neg hp, if_pos (by rw [hav]; rfl)]

/-- Claim C8: `buyHint` never reveals a position twice, and after five
successful purchases (with sufficient points throughout) the next call fails
with `NoHintsRemaining`. -/
theorem c8_hints_no_repeat_exhaust (s t : GameState) (picks : List Nat) (k j : Nat) :
    (t.revealedHintIndices.Nodup → ((buyHint t j).1).revealedHintIndices.Nodup) ∧
    (s.status = GameStatus.inProgress → s.revealedHintIndices = [] →
       picks.length = WORD_LENGTH → 5 * WORD_LENGTH + 5 ≤ s.points →
       buyHint (applyHints s picks) k =
         (applyHints s picks, some HintError.NoHintsRemaining)) := by
  refine ⟨fun h => buyHint_nodup t j h, ?_⟩
  intro hst hrev hlen hpts
  have hinv := applyHints_invariant picks s hst
    (by rw [hrev]; exact List.nodup_nil)
    (by rw [hrev]; intro i hi; exact absurd hi (List.not_mem_nil i))
    (by rw [hrev, hlen]; simp)
    (by rw [hlen]; omega)
  have hflen : (applyHints s picks).revealedHintIndices.length = WORD_LENGTH := by
    rw [hinv.2.2.2.1, hrev, hlen]
    simp
  have hav := availableIndices_eq_nil (applyHints s picks) hinv.2.1 hinv.2.2.1 hflen
  have hfp : ¬ (applyHints s picks).points < 5 := by
    rw [hinv.2.2.2.2, hlen]
    omega
  exact buyHint_noHints (applyHints s picks) k hinv.1 hfp hav

/-- Witness for C8 at a concrete run of five purchases. -/
theorem c8_witness :
    (((buyHint { mkFresh "APPLE".toList sampleBank 9 0 with revealedHintIndices := [0, 2] } 1).1).revealedHintIndices.Nodup) ∧
    buyHint (applyHints (mkFresh "APPLE".toList sampleBank 30 0) [0, 0, 0, 0, 0]) 0 =
      (applyHints (mkFresh "APPLE".toList sampleBank 30 0) [0, 0, 0, 0, 0],
        some HintError.NoHintsRemaining) := by
  refine ⟨?_, ?_⟩
  · exact (c8_hints_no_repeat_exhaust (mkFresh "APPLE".toList sampleBank 30 0)
      { mkFresh "APPLE".toList sampleBank 9 0 with revealedHintIndices := [0, 2] }
      [0, 0, 0, 0, 0] 0 1).1 (by decide)
  · exact (c8_hints_no_repeat_exhaust (mkFresh "APPLE".toList sampleBank 30 0)
      { mkFresh "APPLE".toList sampleBank 9 0 with revealedHintIndices := [0, 2] }
      [0, 0, 0, 0, 0] 0 1).2 rfl rfl rfl (by decide)

end Wordwave
namespace Wordwave

/-- Counterexample for C9 as stated: the loader keeps the length-5 entry
"12345" although it contains no letter at all — there is no A–Z character
filter in the code. -/
theorem c9_counterexample :
    fetchWordList "12345".toList = ["12345".toList] ∧
    ("12345".toList.all isUpperAZ) = false := by
  constructor
  · decide
  · decide

/-- Claim C9 (amended): every word produced by the loader has length exactly
5 — the loader splits on newlines, trims, uppercases and keeps the length-5
entries, with no character-set check. -/
theorem c9_load_length (raw : List Char) (w : List Char) (h : w ∈ fetchWordList raw) :
    w.length = WORD_LENGTH := by
  unfold fetchWordList at h
  have hm := List.mem_filter.mp h
  simpa using hm.2

/-- Witness for C9 (amended) on a two-line dictionary. -/
theorem c9_witness : ("APPLE".toList : List Char).length = WORD_LENGTH :=
  c9_load_length "apple\nkiwis".toList "APPLE".toList (by decide)

/-- Claim C10: `newGame` resets exactly the per-game state and leaves
points, streak and the loaded word list unchanged. -/
theorem c10_newGame_frame (s : GameState) (pick : Nat) :
    (newGame s pick).points = s.points ∧
    (newGame s pick).streak = s.streak ∧
    (newGame s pick).validWords = s.validWords ∧
    (newGame s pick).guessCount = 0 ∧
    (newGame s pick).greenLetters = [] ∧
    (newGame s pick).yellowLetters = [] ∧
    (newGame s pick).grayLetters = [] ∧
    (newGame s pick).revealedHintIndices = [] ∧
    (newGame s pick).status = GameStatus.inProgress :=
  ⟨rfl, rfl, rfl, rfl, rfl, rfl, rfl, rfl, rfl⟩

end Wordwave
